import Mathlib

/-!
Verification development for the Letterboxd review-to-image pipeline.

Shallow embedding of the pipeline's components:
* `Cache` embeds the TTL/LRU cache of `src/lib/cache.ts`;
* the session-metadata store embeds `src/lib/metadata-cache.ts`
  (`cacheMetadata`, `getCachedMetadata`, `cleanOldEntries`);
* `normalizeUrl` / `followRedirect` embed `src/lib/url-normalizer.ts`;
* `extractTitle`, `extractRating`, `parseReview` embed `src/lib/review-parser.ts`;
* `renderToImage` / `releasePage` / the browser singleton embed
  `src/lib/playwright-renderer.ts`.

Timestamps (`Date.now()`) are passed explicitly as integers; network and
browser effects are passed as explicit environments.  JavaScript `Map`s are
embedded as insertion-ordered association lists (a `Map.set` on a present key
updates in place, preserving the iteration position, exactly as in JS).
-/

set_option autoImplicit false

namespace LB

/-- Decidable equality for `Except`, used to evaluate the embeddings of
fallible operations on concrete inputs. -/
instance {ε α : Type} [DecidableEq ε] [DecidableEq α] :
    DecidableEq (Except ε α) := fun x y =>
  match x, y with
  | .ok a, .ok b =>
    if h : a = b then isTrue (by rw [h])
    else isFalse (by intro hc; cases hc; exact h rfl)
  | .error a, .error b =>
    if h : a = b then isTrue (by rw [h])
    else isFalse (by intro hc; cases hc; exact h rfl)
  | .ok _, .error _ => isFalse (by intro hc; cases hc)
  | .error _, .ok _ => isFalse (by intro hc; cases hc)

/-! ### Insertion-ordered string-keyed maps (JS `Map`) -/

/-- Lookup in an insertion-ordered map (`Map.get`). -/
def storeGet {β : Type} (s : List (String × β)) (k : String) : Option β :=
  match s with
  | [] => none
  | (k1, e) :: rest => if k1 = k then some e else storeGet rest k

/-- Key-presence test (`Map.has`). -/
def storeHas {β : Type} (s : List (String × β)) (k : String) : Bool :=
  (storeGet s k).isSome

/-- `Map.set`: update in place if the key is present (keeping its iteration
position), otherwise append at the end. -/
def storeSet {β : Type} (s : List (String × β)) (k : String) (e : β) :
    List (String × β) :=
  match s with
  | [] => [(k, e)]
  | (k1, e1) :: rest =>
    if k1 = k then (k, e) :: rest else (k1, e1) :: storeSet rest k e

/-- `Map.delete`: remove the (first) binding of the key. -/
def storeDelete {β : Type} (s : List (String × β)) (k : String) :
    List (String × β) :=
  match s with
  | [] => []
  | (k1, e1) :: rest =>
    if k1 = k then rest else (k1, e1) :: storeDelete rest k

/-- The keys of a map, in iteration order. -/
def storeKeys {β : Type} (s : List (String × β)) : List String :=
  s.map Prod.fst

/-! ### The TTL+LRU cache of `src/lib/cache.ts` -/

/-- `CacheEntry<T>` of `cache.ts`. -/
structure CacheEntry (T : Type) where
  value : T
  expiresAt : Int
  lastAccessed : Int
deriving Repr, DecidableEq

/-- `Cache<T>` of `cache.ts`: the backing `Map`, the TTL and the capacity. -/
structure Cache (T : Type) where
  store : List (String × CacheEntry T)
  ttl : Int
  maxEntries : Nat
deriving Repr, DecidableEq

/-- `DEFAULT_TTL` of `cache.ts` (one hour, in milliseconds). -/
def DEFAULT_TTL : Int := 60 * 60 * 1000

/-- `MAX_ENTRIES` of `cache.ts`. -/
def MAX_ENTRIES : Nat := 100

/-- `Cache.get`: absent gives `undefined`; an expired entry is purged and
treated as absent; otherwise `lastAccessed` is refreshed (LRU bookkeeping)
and the value returned.  `now` is the value of `Date.now()`. -/
def Cache.get {T : Type} (c : Cache T) (now : Int) (k : String) :
    Option T × Cache T :=
  match storeGet c.store k with
  | none => (none, c)
  | some e =>
    if e.expiresAt < now then
      (none, { c with store := storeDelete c.store k })
    else
      (some e.value,
       { c with store := storeSet c.store k { e with lastAccessed := now } })

/-- The scan of `evictLRU`: fold over the store keeping the key with the
strictly smallest `lastAccessed` seen so far (`oldestTime` starts at
`Infinity`, so the first entry always wins against an empty accumulator). -/
def findOldest {T : Type} (s : List (String × CacheEntry T))
    (best : Option (String × Int)) : Option (String × Int) :=
  match s with
  | [] => best
  | (k, e) :: rest =>
    match best with
    | none => findOldest rest (some (k, e.lastAccessed))
    | some (bk, bt) =>
      if e.lastAccessed < bt then findOldest rest (some (k, e.lastAccessed))
      else findOldest rest (some (bk, bt))

/-- `Cache.evictLRU`.  The guard is the JavaScript truthiness test
`if (oldestKey)`, which is false both for `null` and for the empty string:
an empty-string key is therefore never deleted. -/
def Cache.evictLRU {T : Type} (c : Cache T) : Cache T :=
  match findOldest c.store none with
  | none => c
  | some (k, _) =>
    if k = "" then c else { c with store := storeDelete c.store k }

/-- `Cache.set`: evict (at most) one entry when inserting a fresh key at
capacity, then store the value with a fresh expiry and access time. -/
def Cache.set {T : Type} (c : Cache T) (now : Int) (k : String) (v : T) :
    Cache T :=
  let c1 :=
    if c.maxEntries ≤ c.store.length ∧ ¬ storeHas c.store k = true then
      c.evictLRU
    else c
  { c1 with store := storeSet c1.store k ⟨v, now + c.ttl, now⟩ }

/-- `Cache.cleanup`: the periodic sweep purging expired entries. -/
def Cache.cleanup {T : Type} (c : Cache T) (now : Int) : Cache T :=
  { c with store := c.store.filter (fun p => !(p.2.expiresAt < now)) }

/-- One cache operation, for reasoning about arbitrary operation sequences. -/
inductive CacheOp (T : Type) where
  | get (now : Int) (k : String)
  | set (now : Int) (k : String) (v : T)

/-- The key an operation touches. -/
def opKey {T : Type} : CacheOp T → String
  | .get _ k => k
  | .set _ k _ => k

/-- Run one operation, keeping only the cache state. -/
def runOp {T : Type} (c : Cache T) : CacheOp T → Cache T
  | .get now k => (c.get now k).2
  | .set now k v => c.set now k v

/-- Run a sequence of operations. -/
def runOps {T : Type} (c : Cache T) (ops : List (CacheOp T)) : Cache T :=
  ops.foldl runOp c

/-- Well-formedness of a cache state: distinct keys, no empty-string key,
and the capacity bound.  The empty cache satisfies it, and the pipeline's
keys (session ids, `generateCacheKey` fingerprints) are never empty. -/
def CacheWF {T : Type} (c : Cache T) : Prop :=
  (storeKeys c.store).Nodup ∧ (∀ k ∈ storeKeys c.store, k ≠ "") ∧
    c.store.length ≤ c.maxEntries

/-- `generateCacheKey` of `cache.ts`. -/
def generateCacheKey (url preset templateVersion : String) : String :=
  url ++ "::" ++ preset ++ "::" ++ templateVersion

/-! ### The metadata session cache of `src/lib/metadata-cache.ts` -/

/-- `CacheEntry` of `metadata-cache.ts` (value plus creation timestamp). -/
structure SessEntry (M : Type) where
  metadata : M
  timestamp : Int
deriving Repr, DecidableEq

/-- `CACHE_TTL` of `metadata-cache.ts` (30 minutes, in milliseconds). -/
def SESSION_CACHE_TTL : Int := 30 * 60 * 1000

/-- `cleanOldEntries`: drop entries older than the TTL. -/
def cleanOldEntries {M : Type} (now : Int) (cache : List (String × SessEntry M)) :
    List (String × SessEntry M) :=
  cache.filter (fun p => !(SESSION_CACHE_TTL < now - p.2.timestamp))

/-- `cacheMetadata`: clean expired entries, then store the metadata under the
freshly generated session id (passed explicitly, as id generation is a
random-source effect).  There is no capacity check anywhere. -/
def cacheMetadata {M : Type} (now : Int) (sessionId : String) (metadata : M)
    (cache : List (String × SessEntry M)) : List (String × SessEntry M) :=
  storeSet (cleanOldEntries now cache) sessionId ⟨metadata, now⟩

/-- `getCachedMetadata`: lazy expiry on read. -/
def getCachedMetadata {M : Type} (now : Int) (sessionId : String)
    (cache : List (String × SessEntry M)) :
    Option M × List (String × SessEntry M) :=
  match storeGet cache sessionId with
  | none => (none, cache)
  | some e =>
    if SESSION_CACHE_TTL < now - e.timestamp then
      (none, storeDelete cache sessionId)
    else (some e.metadata, cache)

/-- Insert a batch of fresh sessions (all at time 0) one by one. -/
def sessionInsertAll {M : Type} (m : M) (sids : List String)
    (cache : List (String × SessEntry M)) : List (String × SessEntry M) :=
  sids.foldl (fun c sid => cacheMetadata 0 sid m c) cache

/-- 101 distinct session ids. -/
def sids101 : List String := (List.range 101).map (fun i => "s" ++ toString i)

/-! ### String utilities mirroring the JavaScript primitives used -/

/-- Is the first list a leading segment of the second (`String.startsWith`
on character lists)? -/
def leadsList (needle hay : List Char) : Bool :=
  match needle, hay with
  | [], _ => true
  | _, [] => false
  | a :: as, b :: bs => a = b && leadsList as bs

/-- JavaScript `String.prototype.includes`: substring containment. -/
def containsSub (hay needle : List Char) : Bool :=
  match hay with
  | [] => needle.isEmpty
  | _ :: t => leadsList needle hay || containsSub t needle

/-- `includes` lifted to `String`. -/
def strIncludes (s sub : String) : Bool :=
  containsSub s.toList sub.toList

/-- Does the string end with the given suffix? -/
def strEndsWith (s suf : String) : Bool :=
  leadsList suf.toList.reverse s.toList.reverse

/-- Character-list trimming: drop whitespace from both ends. -/
def trimChars (l : List Char) : List Char :=
  ((l.dropWhile Char.isWhitespace).reverse.dropWhile Char.isWhitespace).reverse

/-- JavaScript `String.prototype.trim` (whitespace on both ends; modelled
over the ASCII whitespace characters). -/
def jsTrim (s : String) : String :=
  String.mk (trimChars s.toList)

/-- Case-insensitive `leadsList` (ASCII folding, as the `/i` regex flag). -/
def ciStartsWith (needle hay : List Char) : Bool :=
  match needle, hay with
  | [], _ => true
  | _, [] => false
  | a :: as, b :: bs => a.toLower = b.toLower && ciStartsWith as bs

/-- A character the regex `.` matches (no `s` flag): not a line terminator. -/
def isDotChar (c : Char) : Bool :=
  !(c = Char.ofNat 10 || c = Char.ofNat 13 ||
    c = Char.ofNat 0x2028 || c = Char.ofNat 0x2029)

/-- A character the class `['"]` matches. -/
def isQuoteChar (c : Char) : Bool :=
  c = Char.ofNat 39 || c = Char.ofNat 34

/-- Truthiness of an optional string (JS: `undefined` and `""` are falsy). -/
def optTruthy (o : Option String) : Bool :=
  match o with
  | some s => s ≠ ""
  | none => false

/-- The string under an optional (JS reads the value after the truthy test). -/
def optGet (o : Option String) : String := o.getD ""

/-- After an opening quote: consume the lazy `(.+?)` one character at a time,
closing at the first later `['"]` once at least one character was consumed.
`acc` holds the reversed content so far.  A line terminator kills the
attempt (regex `.` does not match it). -/
def quotedClose (acc : List Char) : List Char → Option (List Char)
  | [] => none
  | c :: rest =>
    if acc ≠ [] && isQuoteChar c then some acc.reverse
    else if isDotChar c then quotedClose (c :: acc) rest
    else none

/-- The regex `/['"](.+?)['"]/`: scan for the leftmost start position that
matches, returning the first capture group. -/
def quotedScan : List Char → Option (List Char)
  | [] => none
  | c :: rest =>
    if isQuoteChar c then
      match quotedClose [] rest with
      | some content => some content
      | none => quotedScan rest
    else quotedScan rest

/-- `match(/['"](.+?)['"]/)` returning capture group 1. -/
def jsQuotedMatch (s : String) : Option String :=
  (quotedScan s.toList).map String.mk

/-- After `Review of `: consume the lazy `(.+?)`, closing at the first
position where ` by ` (case-insensitively) follows, having consumed at
least one character. -/
def reviewOfClose (acc : List Char) : List Char → Option (List Char)
  | [] => none
  | c :: rest =>
    if acc ≠ [] && ciStartsWith " by ".toList (c :: rest) then some acc.reverse
    else if isDotChar c then reviewOfClose (c :: acc) rest
    else none

/-- The regex `/Review of (.+?) by /i`: leftmost match, capture group 1. -/
def reviewOfScan : List Char → Option (List Char)
  | [] => none
  | c :: rest =>
    if ciStartsWith "Review of ".toList (c :: rest) then
      match reviewOfClose [] ((c :: rest).drop 10) with
      | some content => some content
      | none => reviewOfScan rest
    else reviewOfScan rest

/-- `match(/Review of (.+?) by /i)` returning capture group 1. -/
def jsReviewOfMatch (s : String) : Option String :=
  (reviewOfScan s.toList).map String.mk

/-- `replace(/\s*\(\d{4}\)\s*$/, '')`: strip one trailing parenthesized
four-digit year together with the whitespace around it. -/
def stripYearSuffix (s : String) : String :=
  match (s.toList.reverse.dropWhile Char.isWhitespace : List Char) with
  | ')' :: d1 :: d2 :: d3 :: d4 :: '(' :: rest =>
    if d1.isDigit && d2.isDigit && d3.isDigit && d4.isDigit then
      String.mk (rest.dropWhile Char.isWhitespace).reverse
    else s
  | _ => s

/-- Numeric value of a digit run (`parseInt(_, 10)` on an all-digit string). -/
def digitsVal (l : List Char) : Nat :=
  l.foldl (fun n c => n * 10 + (c.toNat - 48)) 0

/-- The regex `/rated-(\d+)/`: leftmost occurrence of `rated-` followed by at
least one digit; the capture is the maximal digit run (greedy `\d+`). -/
def ratedScan : List Char → Option Nat
  | [] => none
  | c :: rest =>
    if leadsList "rated-".toList (c :: rest) then
      match (c :: rest).drop 6 |>.takeWhile Char.isDigit with
      | [] => ratedScan rest
      | ds => some (digitsVal ds)
    else ratedScan rest

/-- `String.prototype.split` with a one-character separator, structurally
(JS `"".split(c)` gives `[""]`, and separators at the ends give empty
fields). -/
def splitOnChar (sep : Char) : List Char → List (List Char)
  | [] => [[]]
  | c :: rest =>
    match splitOnChar sep rest with
    | [] => if c = sep then [[], []] else [[c]]
    | h :: t => if c = sep then [] :: h :: t else (c :: h) :: t

/-- `Array.prototype.join` with a separator. -/
def joinSep (sep : String) : List String → String
  | [] => ""
  | [x] => x
  | x :: y :: xs => x ++ sep ++ joinSep sep (y :: xs)

/-- JavaScript `String.prototype.toLowerCase` (ASCII folding). -/
def strToLower (s : String) : String :=
  String.mk (s.toList.map Char.toLower)

/-- `slugToTitle` of `review-parser.ts`: hyphen-separated slug to
title case; the empty slug yields `"Unknown Film"`. -/
def capitalizeWord (w : String) : String :=
  match w.toList with
  | [] => ""
  | c :: rest => String.mk (c.toUpper :: rest.map Char.toLower)

/-- `slugToTitle` itself. -/
def slugToTitle (slug : String) : String :=
  if slug = "" then "Unknown Film"
  else joinSep " "
    (((splitOnChar '-' slug.toList).map String.mk).map capitalizeWord)

/-! ### A model of the WHATWG `URL` constructor

Only the fields the normalizer reads are modelled: `protocol` (lowercased
scheme plus `:`), `hostname` (lowercased, as the `URL` getter returns it)
and `pathname`.  Parsing fails (`new URL` throws) on input without a valid
`scheme://` or with an empty host. -/

structure URLParts where
  protocol : String
  hostname : String
  pathname : String
deriving Repr, DecidableEq

/-- Split at the first colon: `(scheme, remainder)`. -/
def takeScheme : List Char → Option (List Char × List Char)
  | [] => none
  | c :: rest =>
    if c = ':' then some ([], rest)
    else
      match takeScheme rest with
      | some (a, b) => some (c :: a, b)
      | none => none

/-- Characters allowed in a scheme after the initial letter. -/
def schemeCharOk (c : Char) : Bool :=
  c.isAlpha || c.isDigit || c = '+' || c = '-' || c = '.'

/-- The host part of an authority: after the last `@`, before the port. -/
def afterLastAt (l : List Char) : List Char :=
  l.foldl (fun acc c => if c = '@' then [] else acc ++ [c]) []

/-- The `URL` model. -/
def parseURL (s : String) : Option URLParts :=
  match takeScheme s.toList with
  | none => none
  | some (schemeL, rest) =>
    match schemeL with
    | [] => none
    | c0 :: _ =>
      if c0.isAlpha && schemeL.all schemeCharOk then
        match rest with
        | '/' :: '/' :: rest2 =>
          let fin := fun c => c = '/' || c = '?' || c = '#'
          let authority := rest2.takeWhile (fun c => !(fin c))
          let after := rest2.dropWhile (fun c => !(fin c))
          let host := (afterLastAt authority).takeWhile (fun c => c ≠ ':')
          if host.isEmpty then none
          else
            let path := after.takeWhile (fun c => c ≠ '?' && c ≠ '#')
            some
              { protocol := String.mk (schemeL.map Char.toLower) ++ ":"
                hostname := String.mk (host.map Char.toLower)
                pathname := if path.isEmpty then "/" else String.mk path }
        | _ => none
      else none

/-! ### The URL normalizer of `src/lib/url-normalizer.ts` -/

/-- The error codes of `UrlNormalizationError`. -/
inductive NormCode where
  | EMPTY_URL
  | INVALID_URL_FORMAT
  | INVALID_PROTOCOL
  | INVALID_DOMAIN
  | NOT_REVIEW_URL
  | INVALID_REDIRECT
  | REDIRECT_FAILED
deriving Repr, DecidableEq

/-- The network effect of the normalizer: the redirect-following `fetch`
of a short link, yielding `response.url` or a transport failure. -/
structure NormEnv where
  redirect : String → Except Unit String

/-- `followRedirect`: resolve the short link, then accept the final URL iff
its hostname *contains the substring* `letterboxd.com` (the code uses
`hostname.includes('letterboxd.com')`).  A transport failure or an
unparsable final URL is `REDIRECT_FAILED`. -/
def followRedirect (env : NormEnv) (shortUrl : String) :
    Except NormCode String :=
  match env.redirect shortUrl with
  | .error _ => .error .REDIRECT_FAILED
  | .ok finalUrl =>
    match parseURL finalUrl with
    | none => .error .REDIRECT_FAILED
    | some p =>
      if strIncludes p.hostname "letterboxd.com" then .ok finalUrl
      else .error .INVALID_REDIRECT

/-- The host allow-list of `normalizeUrl`. -/
def allowedDomains : List String :=
  ["letterboxd.com", "www.letterboxd.com", "boxd.it"]

/-- The normalizer's `pathname.split('/').filter(Boolean)`. -/
def pathSegs (pathname : String) : List String :=
  (((splitOnChar '/' pathname.toList)).map String.mk).filter (fun x => x ≠ "")

/-- `normalizeUrl` of `url-normalizer.ts`. -/
def normalizeUrl (env : NormEnv) (inputUrl : String) : Except NormCode String :=
  if jsTrim inputUrl = "" then .error .EMPTY_URL
  else
    match parseURL (jsTrim inputUrl) with
    | none => .error .INVALID_URL_FORMAT
    | some p =>
      if p.protocol = "http:" ∨ p.protocol = "https:" then
        if strToLower p.hostname ∈ allowedDomains then
          if strToLower p.hostname = "boxd.it" then
            followRedirect env (jsTrim inputUrl)
          else if (pathSegs p.pathname).length < 3 ∨
              (pathSegs p.pathname).get? 1 ≠ some "film" then
            .error .NOT_REVIEW_URL
          else .ok (jsTrim inputUrl)
        else .error .INVALID_DOMAIN
      else .error .INVALID_PROTOCOL

/-- What the specification means by the final host *belonging to* the source
domain `letterboxd.com` (the domain itself or one of its subdomains).
This is the spec-side reading, to be compared with the code's substring
test. -/
def hostBelongsToLetterboxd (h : String) : Bool :=
  h = "letterboxd.com" || strEndsWith h ".letterboxd.com"

/-- A redirect environment whose final URL sits on an attacker-controlled
domain that merely *contains* `letterboxd.com` as a substring. -/
def evilRedirectEnv : NormEnv :=
  ⟨fun _ => .ok "https://letterboxd.com.evil.com/path"⟩

/-- A redirect environment that always fails at transport level. -/
def offlineEnv : NormEnv :=
  ⟨fun _ => .error ()⟩

/-! ### The metadata extractor of `src/lib/review-parser.ts` -/

/-- The raw markup sources the title cascade of `extractMetadata` reads:
`og:title` content (`|| ''`), the `data-film-name` attribute of
`.film-poster`, the trimmed `h1.headline-1 a` text, and the trimmed
`<title>` text. -/
structure TitleSources where
  ogTitle : String
  filmPosterTitle : Option String
  filmDetailLink : String
  pageTitle : String
deriving Repr, DecidableEq

/-- The film-title derivation of `extractMetadata`, lines 171–208:
start from the slug-derived title, then overwrite from the markup sources.
Note the gating: the `og:title` branch is entered whenever `ogTitle` is a
non-empty string — if neither of its patterns then matches, the page title
is *not* consulted; likewise the page-title branch requires `ogTitle` to be
empty. -/
def extractTitle (doc : TitleSources) (filmSlug : String) : String :=
  let t1 :=
    if optTruthy doc.filmPosterTitle then optGet doc.filmPosterTitle
    else if doc.filmDetailLink ≠ "" then doc.filmDetailLink
    else if doc.ogTitle ≠ "" then
      match jsQuotedMatch doc.ogTitle with
      | some q => q
      | none =>
        match jsReviewOfMatch doc.ogTitle with
        | some r => jsTrim (stripYearSuffix r)
        | none => slugToTitle filmSlug
    else if doc.pageTitle ≠ "" then
      match jsQuotedMatch doc.pageTitle with
      | some q => q
      | none => slugToTitle filmSlug
    else slugToTitle filmSlug
  if t1 = "" ∧ filmSlug ≠ "" then slugToTitle filmSlug else t1

/-- The title cascade as the specification words it: an ordered list of
strategies — dedicated poster attribute, heading link text, social-preview
patterns, page-title quoted pattern, slug-derived title — *each later
strategy consulted only if every earlier strategy produced nothing*. -/
def specTitleCascade (doc : TitleSources) (filmSlug : String) : String :=
  if optTruthy doc.filmPosterTitle then optGet doc.filmPosterTitle
  else if doc.filmDetailLink ≠ "" then doc.filmDetailLink
  else
    match jsQuotedMatch doc.ogTitle with
    | some q => q
    | none =>
      match jsReviewOfMatch doc.ogTitle with
      | some r => jsTrim (stripYearSuffix r)
      | none =>
        match jsQuotedMatch doc.pageTitle with
        | some q => q
        | none => slugToTitle filmSlug

/-- A concrete markup where `og:title` is present but matches neither
social-preview pattern while the page title carries a quoted film name. -/
def conflictDoc : TitleSources :=
  { ogTitle := "Untitled review"
    filmPosterTitle := none
    filmDetailLink := ""
    pageTitle := "A \"Conflicting\" review by bob" }

/-- The rating derivation of `extractMetadata`, lines 231–242: when a
`span.rating` element exists, match `/rated-(\d+)/` against its class
attribute (`|| ''`) and divide the captured integer by two. -/
def extractRating (ratingSpanCount : Nat) (ratingClass : Option String) :
    Option ℚ :=
  if 0 < ratingSpanCount then
    match ratedScan (optGet ratingClass).toList with
    | some v => some ((v : ℚ) / 2)
    | none => none
  else none

/-- `ReviewMetadata` as produced by `extractMetadata`. -/
structure ReviewMetadata where
  filmTitle : String
  filmYear : Option Int
  authorName : String
  authorUsername : String
  avatarUrl : Option String
  rating : Option ℚ
  liked : Bool
  watchedDate : Option String
  reviewText : String
  spoiler : Bool
  posterUrl : Option String
deriving Repr, DecidableEq

/-- The error codes of `ReviewParseError` raised by `fetchReviewPage`. -/
inductive ParseCode where
  | ACCESS_DENIED
  | NOT_FOUND
  | HTTP_ERROR
  | FETCH_FAILED
deriving Repr, DecidableEq

/-- The effects of `parseReview`: the primary fetch-and-extract (fatal on
failure), the TMDB poster lookup (`getMoviePosterAsBase64`: may throw, may
return `null`), and `fetchImageAsBase64` (catches internally: returns the
data URL or `null`, never throws). -/
structure ParseEnv where
  page : Except ParseCode ReviewMetadata
  tmdb : Except Unit (Option String)
  fetchImage : String → Option String

/-- The Letterboxd-side fallback of the poster step: when a poster URL was
extracted, try to embed its bytes; keep the URL if that fails. -/
def posterFallback (env : ParseEnv) (m : ReviewMetadata) : ReviewMetadata :=
  if optTruthy m.posterUrl then
    if optTruthy (env.fetchImage (optGet m.posterUrl)) then
      { m with posterUrl := env.fetchImage (optGet m.posterUrl) }
    else m
  else m

/-- The poster step of `parseReview`, lines 32–64: a truthy TMDB result
replaces the poster; a `null` result or a thrown lookup both degrade to the
Letterboxd fallback. -/
def postPoster (env : ParseEnv) (m : ReviewMetadata) : ReviewMetadata :=
  match env.tmdb with
  | .ok t => if optTruthy t then { m with posterUrl := t } else posterFallback env m
  | .error _ => posterFallback env m

/-- The avatar step of `parseReview`, lines 66–76: embed the avatar bytes
when present, keeping the URL on failure. -/
def postAvatar (env : ParseEnv) (m : ReviewMetadata) : ReviewMetadata :=
  if optTruthy m.avatarUrl then
    if optTruthy (env.fetchImage (optGet m.avatarUrl)) then
      { m with avatarUrl := env.fetchImage (optGet m.avatarUrl) }
    else m
  else m

/-- `parseReview`: fatal on primary fetch/parse failure, then the two
image steps (which never fail the call). -/
def parseReview (env : ParseEnv) : Except ParseCode ReviewMetadata :=
  match env.page with
  | .error e => .error e
  | .ok m => .ok (postAvatar env (postPoster env m))

/-- Whether an `Except` is a success. -/
def exceptIsOk {ε α : Type} : Except ε α → Bool
  | .ok _ => true
  | .error _ => false

/-- A concrete extracted metadata value used to instantiate theorems. -/
def sampleMetadata : ReviewMetadata :=
  { filmTitle := "Dune Part Two"
    filmYear := some 2024
    authorName := "Alice"
    authorUsername := "alice"
    avatarUrl := some "https://a.ltrbxd.com/avatar.jpg"
    rating := some (7 / 2 : ℚ)
    liked := true
    watchedDate := some "2024-03-01"
    reviewText := "Great."
    spoiler := false
    posterUrl := some "https://a.ltrbxd.com/poster.jpg" }

/-- A parse environment where the page succeeds but every supplementary
image operation fails (lookup returns `null`, embeds fail). -/
def degradedEnv : ParseEnv :=
  { page := .ok sampleMetadata
    tmdb := .ok none
    fetchImage := fun _ => none }

/-! ### The render engine of `src/lib/playwright-renderer.ts` -/

/-- `MAX_PAGES` of `playwright-renderer.ts`. -/
def MAX_PAGES : Nat := 5

/-- The shared page pool and the set of torn-down pages; pages are
identified by numbers.  The pool list head is the array end (`pop`/`push`
operate there). -/
structure PoolState where
  pagePool : List Nat
  closed : List Nat
deriving Repr, DecidableEq

/-- `page.isClosed()`. -/
def pageIsClosed (s : PoolState) (p : Nat) : Bool :=
  decide (p ∈ s.closed)

/-- `getPage`: pop from the pool; a popped-but-closed page is discarded and
a fresh page (`freshId`) is created instead; an empty pool also creates a
fresh page. -/
def getPage (s : PoolState) (freshId : Nat) : Nat × PoolState :=
  match s.pagePool with
  | [] => (freshId, s)
  | p :: rest =>
    if pageIsClosed s p then (freshId, { s with pagePool := rest })
    else (p, { s with pagePool := rest })

/-- `releasePage`: a closed page is left alone; otherwise push it back when
the pool is under capacity, else close it. -/
def releasePage (s : PoolState) (p : Nat) : PoolState :=
  if pageIsClosed s p then s
  else if s.pagePool.length < MAX_PAGES then { s with pagePool := p :: s.pagePool }
  else { s with closed := p :: s.closed }

/-- What the browser does during one render: either the screenshot bytes or
a thrown error carrying a message; independently the page may end up closed
by a crash. -/
structure RenderEnv where
  outcome : Except String (List Nat)
  pageCrashes : Bool

/-- The error codes of `RenderError`. -/
inductive RenderCode where
  | RENDER_TIMEOUT
  | RENDER_FAILED
deriving Repr, DecidableEq

/-- The pool state after the body of `renderToImage` and before the
`finally` block: the page is checked out, and possibly crashed closed. -/
def renderMidState (env : RenderEnv) (s : PoolState) (freshId : Nat) :
    PoolState :=
  let checked := getPage s freshId
  if env.pageCrashes then
    { checked.2 with closed := checked.1 :: checked.2.closed }
  else checked.2

/-- `renderToImage`, lines 96–141: check a page out, run the render, map a
thrown error whose message contains `timeout` to `RENDER_TIMEOUT` and any
other to `RENDER_FAILED`, and — success or failure alike (`finally`) —
release the page. -/
def renderToImage (env : RenderEnv) (s : PoolState) (freshId : Nat) :
    Except RenderCode (List Nat) × PoolState :=
  let page := (getPage s freshId).1
  let result : Except RenderCode (List Nat) :=
    match env.outcome with
    | .ok png => .ok png
    | .error msg =>
      if strIncludes msg "timeout" then .error .RENDER_TIMEOUT
      else .error .RENDER_FAILED
  (result, releasePage (renderMidState env s freshId) page)

/-! ### The browser singleton of `getBrowser` (lines 27–62)

State at `await`-granularity: JavaScript runs each synchronous segment to
completion, so the whole null-check/launch-assignment prefix of
`getBrowser` is one atomic step.  `connected` is `browserInstance`
(with its `isConnected()` flag), `launching` is `browserInitPromise`,
and `builds` counts constructions currently in flight. -/

structure BrowserState where
  connected : Option Bool
  launching : Bool
  builds : Nat
deriving Repr, DecidableEq

/-- The state before any render call. -/
def initialBrowserState : BrowserState := ⟨none, false, 0⟩

/-- The synchronous prefix of one `getBrowser` call: return the connected
instance, or await the in-flight launch, or start a launch.  The boolean
reports whether this call started a construction. -/
def browserCallStep (s : BrowserState) : BrowserState × Bool :=
  match s.connected with
  | some true => (s, false)
  | _ =>
    if s.launching then (s, false)
    else ({ s with launching := true, builds := s.builds + 1 }, true)

/-- `n` concurrent first-time callers, interleaved at the only possible
granularity (each synchronous prefix is atomic): run the call step `n`
times, counting starts. -/
def runCalls : BrowserState → Nat → BrowserState × Nat
  | s, 0 => (s, 0)
  | s, n + 1 =>
    let c := browserCallStep s
    let r := runCalls c.1 n
    (r.1, (if c.2 then 1 else 0) + r.2)

/-- All states the renderer module can reach: call steps, launch completion
(success stores the connected instance and clears the promise — the
`finally` — and failure clears the promise), and the `disconnected`
handler.  A completion event consumes one in-flight launch; the handler
fires for a live instance, atomically with the connection loss (the
emitter calls it synchronously when the connection drops). -/
inductive BrowserReach : BrowserState → Prop where
  | init : BrowserReach initialBrowserState
  | call {s : BrowserState} : BrowserReach s → BrowserReach (browserCallStep s).1
  | launchOk {s : BrowserState} : BrowserReach s → 1 ≤ s.builds →
      BrowserReach ⟨some true, false, s.builds - 1⟩
  | launchFail {s : BrowserState} : BrowserReach s → 1 ≤ s.builds →
      BrowserReach ⟨s.connected, false, s.builds - 1⟩
  | disconnect {s : BrowserState} : BrowserReach s → s.connected = some true →
      BrowserReach ⟨none, false, s.builds⟩

/-! ## Supporting lemmas: insertion-ordered maps -/

theorem storeGet_isSome_iff {β : Type} (s : List (String × β)) (k : String) :
    (storeGet s k).isSome = true ↔ k ∈ storeKeys s := by
  induction s with
  | nil => simp [storeGet, storeKeys]
  | cons a t ih =>
    obtain ⟨k1, e⟩ := a
    by_cases h : k1 = k
    · subst h; simp [storeGet, storeKeys]
    · simp [storeGet, storeKeys, h, ih, Ne.symm h]

theorem storeHas_iff {β : Type} (s : List (String × β)) (k : String) :
    storeHas s k = true ↔ k ∈ storeKeys s :=
  storeGet_isSome_iff s k

theorem storeGet_some_mem {β : Type} {s : List (String × β)} {k : String}
    {e : β} (h : storeGet s k = some e) : k ∈ storeKeys s := by
  have : (storeGet s k).isSome = true := by rw [h]; rfl
  exact (storeGet_isSome_iff s k).1 this

theorem storeKeys_storeSet_mem {β : Type} {s : List (String × β)} {k : String}
    (e : β) (h : k ∈ storeKeys s) :
    storeKeys (storeSet s k e) = storeKeys s := by
  induction s with
  | nil => simp [storeKeys] at h
  | cons a t ih =>
    obtain ⟨k1, e1⟩ := a
    by_cases hk : k1 = k
    · subst hk; simp [storeSet, storeKeys]
    · have h0 : k ∈ k1 :: storeKeys t := h
      have h2 : k ∈ storeKeys t := by
        rcases List.mem_cons.mp h0 with h2 | h2
        · exact absurd h2.symm hk
        · exact h2
      calc storeKeys (storeSet ((k1, e1) :: t) k e)
          = k1 :: storeKeys (storeSet t k e) := by simp [storeSet, storeKeys, hk]
        _ = k1 :: storeKeys t := by rw [ih h2]
        _ = storeKeys ((k1, e1) :: t) := by simp [storeKeys]

theorem storeKeys_storeSet_not_mem {β : Type} {s : List (String × β)}
    {k : String} (e : β) (h : k ∉ storeKeys s) :
    storeKeys (storeSet s k e) = storeKeys s ++ [k] := by
  induction s with
  | nil => simp [storeSet, storeKeys]
  | cons a t ih =>
    obtain ⟨k1, e1⟩ := a
    simp only [storeKeys, List.map_cons, List.mem_cons] at h
    push_neg at h
    calc storeKeys (storeSet ((k1, e1) :: t) k e)
        = k1 :: storeKeys (storeSet t k e) := by simp [storeSet, storeKeys, Ne.symm h.1]
      _ = k1 :: (storeKeys t ++ [k]) := by rw [ih h.2]
      _ = storeKeys ((k1, e1) :: t) ++ [k] := by simp [storeKeys]

theorem storeGet_storeSet_self {β : Type} (s : List (String × β)) (k : String)
    (e : β) : storeGet (storeSet s k e) k = some e := by
  induction s with
  | nil => simp [storeSet, storeGet]
  | cons a t ih =>
    obtain ⟨k1, e1⟩ := a
    by_cases hk : k1 = k
    · subst hk; simp [storeSet, storeGet]
    · simp [storeSet, storeGet, hk, ih]

theorem storeGet_storeSet_other {β : Type} (s : List (String × β))
    {k k2 : String} (e : β) (h : k2 ≠ k) :
    storeGet (storeSet s k e) k2 = storeGet s k2 := by
  induction s with
  | nil => simp [storeSet, storeGet, Ne.symm h]
  | cons a t ih =>
    obtain ⟨k1, e1⟩ := a
    by_cases hk : k1 = k
    · subst hk; simp [storeSet, storeGet, Ne.symm h]
    · simp [storeSet, storeGet, hk, ih]

theorem mem_storeSet {β : Type} {s : List (String × β)} {k : String} {e : β}
    {p : String × β} (h : p ∈ storeSet s k e) : p ∈ s ∨ p = (k, e) := by
  induction s with
  | nil => simp [storeSet] at h; exact Or.inr h
  | cons a t ih =>
    obtain ⟨k1, e1⟩ := a
    by_cases hk : k1 = k
    · subst hk
      rw [show storeSet ((k1, e1) :: t) k1 e = (k1, e) :: t by simp [storeSet]] at h
      rcases List.mem_cons.mp h with h2 | h2
      · exact Or.inr h2
      · exact Or.inl (List.mem_cons_of_mem _ h2)
    · rw [show storeSet ((k1, e1) :: t) k e = (k1, e1) :: storeSet t k e by
          simp [storeSet, hk]] at h
      rcases List.mem_cons.mp h with h2 | h2
      · exact Or.inl (by simp [h2])
      · rcases ih h2 with h3 | h3
        · exact Or.inl (List.mem_cons_of_mem _ h3)
        · exact Or.inr h3

theorem storeDelete_sublist {β : Type} (s : List (String × β)) (k : String) :
    List.Sublist (storeDelete s k) s := by
  induction s with
  | nil => simp [storeDelete]
  | cons a t ih =>
    obtain ⟨k1, e1⟩ := a
    by_cases hk : k1 = k
    · rw [show storeDelete ((k1, e1) :: t) k = t by simp [storeDelete, hk]]
      exact List.sublist_cons_self (k1, e1) t
    · rw [show storeDelete ((k1, e1) :: t) k = (k1, e1) :: storeDelete t k by
          simp [storeDelete, hk]]
      exact List.Sublist.cons₂ (k1, e1) ih

theorem storeKeys_storeDelete_sublist {β : Type} (s : List (String × β))
    (k : String) : List.Sublist (storeKeys (storeDelete s k)) (storeKeys s) :=
  List.Sublist.map Prod.fst (storeDelete_sublist s k)

theorem length_storeDelete_of_mem {β : Type} {s : List (String × β)}
    {k : String} (h : k ∈ storeKeys s) :
    (storeDelete s k).length + 1 = s.length := by
  induction s with
  | nil => simp [storeKeys] at h
  | cons a t ih =>
    obtain ⟨k1, e1⟩ := a
    by_cases hk : k1 = k
    · simp [storeDelete, hk]
    · simp only [storeKeys, List.map_cons] at h
      rcases List.mem_cons.mp h with h2 | h2
      · exact absurd h2.symm hk
      · simp [storeDelete, hk, ih h2]

theorem storeKeys_length {β : Type} (s : List (String × β)) :
    (storeKeys s).length = s.length := by
  simp [storeKeys]

theorem length_storeSet_mem {β : Type} {s : List (String × β)} {k : String}
    (e : β) (h : k ∈ storeKeys s) : (storeSet s k e).length = s.length := by
  have h2 := congrArg List.length (storeKeys_storeSet_mem e h)
  simpa [storeKeys_length] using h2

theorem length_storeSet_not_mem {β : Type} {s : List (String × β)} {k : String}
    (e : β) (h : k ∉ storeKeys s) : (storeSet s k e).length = s.length + 1 := by
  have h2 := congrArg List.length (storeKeys_storeSet_not_mem e h)
  simpa [storeKeys_length] using h2

/-! ## Supporting lemmas: the LRU scan -/

theorem findOldest_some_of_some {T : Type} (s : List (String × CacheEntry T))
    (b : String × Int) : ∃ r, findOldest s (some b) = some r := by
  induction s generalizing b with
  | nil => exact ⟨b, rfl⟩
  | cons a t ih =>
    obtain ⟨k, e⟩ := a
    by_cases h : e.lastAccessed < b.2
    · simpa [findOldest, h] using ih (k, e.lastAccessed)
    · simpa [findOldest, h] using ih b

theorem findOldest_some_of_ne_nil {T : Type} {s : List (String × CacheEntry T)}
    (h : s ≠ []) : ∃ r, findOldest s none = some r := by
  match s, h with
  | (k, e) :: t, _ =>
    simpa [findOldest] using findOldest_some_of_some t (k, e.lastAccessed)

theorem findOldest_mem {T : Type} {s : List (String × CacheEntry T)}
    {best : Option (String × Int)} {r : String × Int}
    (h : findOldest s best = some r) :
    best = some r ∨ r.1 ∈ storeKeys s := by
  induction s generalizing best with
  | nil => exact Or.inl h
  | cons a t ih =>
    obtain ⟨k, e⟩ := a
    match best with
    | none =>
      simp only [findOldest] at h
      right
      rcases ih h with h2 | h2
      · have : r.1 = k := by
          simpa using congrArg (fun o => (Option.getD o r).1) h2.symm
        simp [storeKeys, this]
      · exact List.mem_cons_of_mem _ h2
    | some b =>
      simp only [findOldest] at h
      by_cases hlt : e.lastAccessed < b.2
      · rw [if_pos hlt] at h
        right
        rcases ih h with h2 | h2
        · have : r.1 = k := by
            simpa using congrArg (fun o => (Option.getD o r).1) h2.symm
          simp [storeKeys, this]
        · exact List.mem_cons_of_mem _ h2
      · rw [if_neg hlt] at h
        rcases ih h with h2 | h2
        · exact Or.inl h2
        · exact Or.inr (List.mem_cons_of_mem _ h2)


/-! ## Supporting lemmas: the cache invariant -/

theorem cache_set_eq_pos {T : Type} (c : Cache T) (now : Int) (k : String)
    (v : T) (h : c.maxEntries ≤ c.store.length ∧ ¬ storeHas c.store k = true) :
    c.set now k v =
      { c.evictLRU with
        store := storeSet c.evictLRU.store k ⟨v, now + c.ttl, now⟩ } := by
  simp [Cache.set, h]

theorem cache_set_eq_neg {T : Type} (c : Cache T) (now : Int) (k : String)
    (v : T)
    (h : ¬(c.maxEntries ≤ c.store.length ∧ ¬ storeHas c.store k = true)) :
    c.set now k v =
      { c with store := storeSet c.store k ⟨v, now + c.ttl, now⟩ } := by
  simp only [Cache.set, if_neg h]

theorem evictLRU_delete {T : Type} (c : Cache T) (k0 : String) (t0 : Int)
    (hfo : findOldest c.store none = some (k0, t0)) (hk0 : k0 ≠ "") :
    c.evictLRU = { c with store := storeDelete c.store k0 } := by
  unfold Cache.evictLRU
  rw [hfo]
  simp [hk0]

theorem cache_get_WF {T : Type} {c : Cache T} (h : CacheWF c) (now : Int)
    (k : String) :
    CacheWF (c.get now k).2 ∧ (c.get now k).2.maxEntries = c.maxEntries := by
  obtain ⟨hnd, hne, hlen⟩ := h
  cases hg : storeGet c.store k with
  | none => simp only [Cache.get, hg]; exact ⟨⟨hnd, hne, hlen⟩, trivial⟩
  | some e =>
    simp only [Cache.get, hg]
    by_cases hexp : e.expiresAt < now
    · rw [if_pos hexp]
      refine ⟨⟨?_, ?_, ?_⟩, rfl⟩
      · exact List.Nodup.sublist (storeKeys_storeDelete_sublist c.store k) hnd
      · intro k2 hk2
        exact hne k2 ((storeKeys_storeDelete_sublist c.store k).subset hk2)
      · exact le_trans (List.Sublist.length_le (storeDelete_sublist c.store k))
          hlen
    · rw [if_neg hexp]
      have hmem := storeGet_some_mem hg
      refine ⟨⟨?_, ?_, ?_⟩, rfl⟩
      · rw [storeKeys_storeSet_mem _ hmem]; exact hnd
      · intro k2 hk2
        rw [storeKeys_storeSet_mem _ hmem] at hk2
        exact hne k2 hk2
      · rw [length_storeSet_mem _ hmem]; exact hlen

theorem cache_set_WF {T : Type} {c : Cache T} (h : CacheWF c)
    (hmax : 1 ≤ c.maxEntries) (now : Int) {k : String} (hk : k ≠ "") (v : T) :
    CacheWF (c.set now k v) ∧ (c.set now k v).maxEntries = c.maxEntries := by
  obtain ⟨hnd, hne, hlen⟩ := h
  by_cases hcond : c.maxEntries ≤ c.store.length ∧ ¬ storeHas c.store k = true
  · -- insertion of a fresh key at capacity: the LRU entry is evicted first
    have hknotmem : k ∉ storeKeys c.store := by
      intro hmem
      exact hcond.2 ((storeHas_iff c.store k).mpr hmem)
    have hlen2 : c.store.length = c.maxEntries := le_antisymm hlen hcond.1
    have hne2 : c.store ≠ [] := by
      intro hnil
      rw [hnil] at hlen2
      simp at hlen2
      omega
    obtain ⟨⟨k0, t0⟩, hfo⟩ := findOldest_some_of_ne_nil hne2
    have hk0mem : k0 ∈ storeKeys c.store := by
      rcases findOldest_mem hfo with h2 | h2
      · exact absurd h2 (by simp)
      · exact h2
    have hk0 : k0 ≠ "" := hne k0 hk0mem
    rw [cache_set_eq_pos c now k v hcond, evictLRU_delete c k0 t0 hfo hk0]
    dsimp only
    have hsub := storeKeys_storeDelete_sublist c.store k0
    have hknotmem2 : k ∉ storeKeys (storeDelete c.store k0) := fun h2 =>
      hknotmem (hsub.subset h2)
    refine ⟨⟨?_, ?_, ?_⟩, rfl⟩
    · rw [storeKeys_storeSet_not_mem _ hknotmem2]
      rw [List.nodup_append]
      refine ⟨List.Nodup.sublist hsub hnd, List.nodup_singleton k, ?_⟩
      intro k2 hk2 hk2b
      have : k2 = k := by simpa using hk2b
      exact hknotmem2 (this ▸ hk2)
    · intro k2 hk2
      rw [storeKeys_storeSet_not_mem _ hknotmem2] at hk2
      rcases List.mem_append.mp hk2 with h2 | h2
      · exact hne k2 (hsub.subset h2)
      · have : k2 = k := by simpa using h2
        rw [this]; exact hk
    · rw [length_storeSet_not_mem _ hknotmem2]
      have h3 := length_storeDelete_of_mem hk0mem
      show (storeDelete c.store k0).length + 1 ≤ c.maxEntries
      omega
  · rw [cache_set_eq_neg c now k v hcond]
    dsimp only
    by_cases hmem : k ∈ storeKeys c.store
    · refine ⟨⟨?_, ?_, ?_⟩, rfl⟩
      · rw [storeKeys_storeSet_mem _ hmem]; exact hnd
      · intro k2 hk2
        rw [storeKeys_storeSet_mem _ hmem] at hk2
        exact hne k2 hk2
      · rw [length_storeSet_mem _ hmem]; exact hlen
    · have hnothas : ¬ storeHas c.store k = true := fun h2 =>
        hmem ((storeHas_iff c.store k).mp h2)
      have hlt : c.store.length < c.maxEntries := by
        rcases not_and_or.mp hcond with h2 | h2
        · omega
        · exact absurd hnothas h2
      refine ⟨⟨?_, ?_, ?_⟩, rfl⟩
      · rw [storeKeys_storeSet_not_mem _ hmem]
        rw [List.nodup_append]
        refine ⟨hnd, List.nodup_singleton k, ?_⟩
        intro k2 hk2 hk2b
        have : k2 = k := by simpa using hk2b
        exact hmem (this ▸ hk2)
      · intro k2 hk2
        rw [storeKeys_storeSet_not_mem _ hmem] at hk2
        rcases List.mem_append.mp hk2 with h2 | h2
        · exact hne k2 h2
        · have : k2 = k := by simpa using h2
          rw [this]; exact hk
      · rw [length_storeSet_not_mem _ hmem]
        show c.store.length + 1 ≤ c.maxEntries
        omega

theorem runOp_WF {T : Type} {c : Cache T} (h : CacheWF c)
    (hmax : 1 ≤ c.maxEntries) {op : CacheOp T} (hop : opKey op ≠ "") :
    CacheWF (runOp c op) ∧ (runOp c op).maxEntries = c.maxEntries := by
  cases op with
  | get now k => exact cache_get_WF h now k
  | set now k v => exact cache_set_WF h hmax now hop v

theorem runOps_WF {T : Type} {c : Cache T} {ops : List (CacheOp T)}
    (h : CacheWF c) (hmax : 1 ≤ c.maxEntries)
    (hops : ∀ op ∈ ops, opKey op ≠ "") :
    CacheWF (runOps c ops) ∧ (runOps c ops).maxEntries = c.maxEntries := by
  induction ops generalizing c with
  | nil => exact ⟨h, rfl⟩
  | cons op rest ih =>
    have h1 := runOp_WF h hmax (hops op (List.mem_cons_self op rest))
    have h2 := ih (c := runOp c op) h1.1 (h1.2 ▸ hmax)
      (fun o ho => hops o (List.mem_cons_of_mem _ ho))
    have hunf : runOps c (op :: rest) = runOps (runOp c op) rest := rfl
    exact ⟨hunf ▸ h2.1, by rw [hunf, h2.2, h1.2]⟩

/-! ## Supporting lemmas: the session cache grows without bound -/

theorem cleanOldEntries_zero {M : Type} (cache : List (String × SessEntry M))
    (hts : ∀ p ∈ cache, p.2.timestamp = 0) :
    cleanOldEntries 0 cache = cache := by
  apply List.filter_eq_self.mpr
  intro p hp
  rw [hts p hp]
  decide

theorem sessionInsertAll_fresh_length {M : Type} (m : M) (sids : List String) :
    ∀ cache : List (String × SessEntry M), sids.Nodup →
      (∀ sid ∈ sids, sid ∉ storeKeys cache) →
      (∀ p ∈ cache, p.2.timestamp = 0) →
      (sessionInsertAll m sids cache).length = cache.length + sids.length := by
  induction sids with
  | nil => intro cache _ _ _; simp [sessionInsertAll]
  | cons sid rest ih =>
    intro cache hnd hfresh hts
    have hstep : cacheMetadata 0 sid m cache = storeSet cache sid ⟨m, 0⟩ := by
      unfold cacheMetadata
      rw [cleanOldEntries_zero cache hts]
    have hnotmem : sid ∉ storeKeys cache := hfresh sid (List.mem_cons_self _ _)
    have hts2 : ∀ p ∈ storeSet cache sid (⟨m, 0⟩ : SessEntry M),
        p.2.timestamp = 0 := by
      intro p hp
      rcases mem_storeSet hp with h2 | h2
      · exact hts p h2
      · rw [h2]
    have hfresh2 : ∀ s2 ∈ rest, s2 ∉ storeKeys (storeSet cache sid
        (⟨m, 0⟩ : SessEntry M)) := by
      intro s2 hs2 hmem
      rw [storeKeys_storeSet_not_mem _ hnotmem] at hmem
      rcases List.mem_append.mp hmem with h2 | h2
      · exact hfresh s2 (List.mem_cons_of_mem _ hs2) h2
      · have : s2 = sid := by simpa using h2
        exact (List.nodup_cons.mp hnd).1 (this ▸ hs2)
    have hrec := ih (storeSet cache sid ⟨m, 0⟩) (List.nodup_cons.mp hnd).2
      hfresh2 hts2
    have hunf : sessionInsertAll m (sid :: rest) cache
        = sessionInsertAll m rest (cacheMetadata 0 sid m cache) := rfl
    rw [hunf, hstep, hrec, length_storeSet_not_mem _ hnotmem]
    simp [Nat.add_assoc, Nat.add_comm 1 rest.length]

set_option maxRecDepth 8000

/-! ## Claim C1 -/

/-- C1, counterexample: the metadata session cache of `metadata-cache.ts` is
*not* a capacity-bounded LRU store.  Inserting 101 fresh sessions (all within
the TTL) leaves 101 held entries — more than `MAX_ENTRIES = 100`, the only
fixed capacity bound in the code base, and no entry was evicted. -/
theorem session_cache_unbounded :
    (sessionInsertAll (0 : Nat) sids101
        ([] : List (String × SessEntry Nat))).length = 101 ∧
    MAX_ENTRIES <
      (sessionInsertAll (0 : Nat) sids101
        ([] : List (String × SessEntry Nat))).length := by
  have hnd : sids101.Nodup := by decide
  have h := sessionInsertAll_fresh_length (0 : Nat) sids101 [] hnd
    (by simp [storeKeys]) (by simp)
  have hlen : sids101.length = 101 := by decide
  rw [hlen] at h
  simp only [List.length_nil, Nat.zero_add] at h
  exact ⟨h, by rw [h]; decide⟩

/-- C1, amended: the `Cache` class (backing the rendered-image cache) is a
key→entry-with-TTL store with LRU eviction under its fixed capacity bound —
for every sequence of insertions and reads with non-empty keys (all render
fingerprints are non-empty), the number of held entries never exceeds the
bound.  The metadata session cache, in contrast, enforces no capacity bound
at all: `n` fresh insertions within the TTL leave `n` held entries, for
every `n`. -/
theorem cache_capacity_lru_amended :
    (∀ (T : Type) (c : Cache T) (ops : List (CacheOp T)),
        CacheWF c → 1 ≤ c.maxEntries → (∀ op ∈ ops, opKey op ≠ "") →
        (runOps c ops).store.length ≤ c.maxEntries) ∧
    (∀ u p t : String, generateCacheKey u p t ≠ "") ∧
    (∀ (M : Type) (m : M) (sids : List String), sids.Nodup →
        (sessionInsertAll m sids ([] : List (String × SessEntry M))).length =
          sids.length) := by
  refine ⟨?_, ?_, ?_⟩
  · intro T c ops hwf hmax hops
    obtain ⟨hwf2, hme⟩ := runOps_WF hwf hmax hops
    calc (runOps c ops).store.length ≤ (runOps c ops).maxEntries := hwf2.2.2
      _ = c.maxEntries := hme
  · intro u p t h
    have h2 := congrArg String.length h
    simp only [generateCacheKey, String.length_append] at h2
    have h3 : ("::" : String).length = 2 := rfl
    have h4 : ("" : String).length = 0 := rfl
    omega
  · intro M m sids hnd
    have h := sessionInsertAll_fresh_length m sids [] hnd
      (by simp [storeKeys]) (by simp)
    simpa using h

/-- Witness for C1's amended theorem at concrete inputs: a bounded run on an
image-cache-shaped cache, a concrete non-empty fingerprint, and a two-session
insertion. -/
theorem cache_capacity_lru_amended_witness :
    (runOps (⟨[], DEFAULT_TTL, 50⟩ : Cache Nat)
        [CacheOp.set 0 "k1" 7, CacheOp.set 1 "k2" 8,
         CacheOp.get 2 "k1"]).store.length ≤ 50 ∧
    generateCacheKey "https://letterboxd.com/a/film/b/" "square-medium-classic"
        "v1" ≠ "" ∧
    (sessionInsertAll (0 : Nat) ["sa", "sb"]
        ([] : List (String × SessEntry Nat))).length = 2 :=
  ⟨cache_capacity_lru_amended.1 Nat ⟨[], DEFAULT_TTL, 50⟩ _
      ⟨by simp [storeKeys], by simp [storeKeys], by simp⟩ (by decide)
      (by decide),
   cache_capacity_lru_amended.2.1 _ _ _,
   cache_capacity_lru_amended.2.2 Nat 0 ["sa", "sb"] (by decide)⟩

/-! ## Claim C4 -/

/-- C4: at the failing input — a cache at its capacity bound whose
least-recently-accessed entry sits under the empty-string key — `set` with a
fresh key removes nothing: the JavaScript truthiness guard `if (oldestKey)`
is false for the empty string, so `evictLRU` deletes no entry and the store
grows past the capacity bound, keeping both keys. -/
theorem evictLRU_empty_key_skipped :
    ((⟨[("", ⟨0, 9, 0⟩)], (10 : Int), 1⟩ : Cache Nat).set 5 "a" 1).store.length
        = 2 ∧
    storeKeys ((⟨[("", ⟨0, 9, 0⟩)], (10 : Int), 1⟩ :
        Cache Nat).set 5 "a" 1).store = ["", "a"] := by
  constructor
  · rfl
  · rfl

/-! ## Claim C10 -/

/-- C10: `Cache.set` on a key already present never evicts, even at the
capacity bound: the key set is unchanged (so no other entry is removed and
the size is unchanged), the entry under the key is overwritten with a fresh
expiry (`now + ttl`) and access time (`now`), and the entry of every other
key is untouched. -/
theorem cache_set_existing_no_evict {T : Type} (c : Cache T) (now : Int)
    (k : String) (v : T) (h : storeHas c.store k = true) :
    storeKeys (c.set now k v).store = storeKeys c.store ∧
    (c.set now k v).store.length = c.store.length ∧
    storeGet (c.set now k v).store k = some ⟨v, now + c.ttl, now⟩ ∧
    (∀ k2, k2 ≠ k → storeGet (c.set now k v).store k2 = storeGet c.store k2) := by
  have hmem : k ∈ storeKeys c.store := (storeHas_iff c.store k).mp h
  have hcond : ¬(c.maxEntries ≤ c.store.length ∧ ¬ storeHas c.store k = true) := by
    simp [h]
  rw [cache_set_eq_neg c now k v hcond]
  dsimp only
  exact ⟨storeKeys_storeSet_mem _ hmem, length_storeSet_mem _ hmem,
    storeGet_storeSet_self c.store k _,
    fun k2 hk2 => storeGet_storeSet_other c.store _ hk2⟩

/-- Witness for C10 at a concrete cache at capacity (2 entries, bound 2)
holding the key being overwritten. -/
theorem cache_set_existing_no_evict_witness :
    storeHas (⟨[("a", ⟨1, 50, 0⟩), ("b", ⟨2, 60, 1⟩)], (10 : Int), 2⟩ :
        Cache Nat).store "a" = true ∧
    storeKeys ((⟨[("a", ⟨1, 50, 0⟩), ("b", ⟨2, 60, 1⟩)], (10 : Int), 2⟩ :
        Cache Nat).set 5 "a" 9).store = ["a", "b"] :=
  ⟨rfl, by
    rw [(cache_set_existing_no_evict
      (⟨[("a", ⟨1, 50, 0⟩), ("b", ⟨2, 60, 1⟩)], (10 : Int), 2⟩ : Cache Nat)
      5 "a" 9 rfl).1]
    rfl⟩

/-! ## Claim C5 -/

theorem releasePage_mem (s : PoolState) (p : Nat) :
    p ∈ (releasePage s p).pagePool ∨ p ∈ (releasePage s p).closed := by
  unfold releasePage
  by_cases h1 : pageIsClosed s p = true
  · rw [if_pos h1]
    right
    exact of_decide_eq_true h1
  · rw [if_neg h1]
    by_cases h2 : s.pagePool.length < MAX_PAGES
    · rw [if_pos h2]
      left
      exact List.mem_cons_self _ _
    · rw [if_neg h2]
      right
      exact List.mem_cons_self _ _

theorem releasePage_length (s : PoolState) (p : Nat)
    (h : s.pagePool.length ≤ MAX_PAGES) :
    (releasePage s p).pagePool.length ≤ MAX_PAGES := by
  unfold releasePage
  by_cases h1 : pageIsClosed s p = true
  · rw [if_pos h1]; exact h
  · rw [if_neg h1]
    by_cases h2 : s.pagePool.length < MAX_PAGES
    · rw [if_pos h2]
      simpa using h2
    · rw [if_neg h2]; exact h

theorem getPage_pool_length (s : PoolState) (freshId : Nat) :
    (getPage s freshId).2.pagePool.length ≤ s.pagePool.length := by
  cases hp : s.pagePool with
  | nil => simp [getPage, hp]
  | cons p rest =>
    simp only [getPage, hp]
    split <;> simp [hp]

theorem renderMidState_pool (env : RenderEnv) (s : PoolState) (freshId : Nat) :
    (renderMidState env s freshId).pagePool = (getPage s freshId).2.pagePool := by
  unfold renderMidState
  by_cases h : env.pageCrashes = true
  · rw [if_pos h]
  · rw [if_neg h]

/-- C5: whatever the render outcome — returned bytes, a thrown timeout or any
other thrown error, with or without the page crashing closed — the
checked-out rendering session is released by the `finally` block: the final
pool state is exactly `releasePage` of the mid-render state, the session ends
up back in the pool or torn down (never leaked), and the idle pool never
holds more than `MAX_PAGES = 5` sessions. -/
theorem renderToImage_releases_session (env : RenderEnv) (s : PoolState)
    (freshId : Nat) (hb : s.pagePool.length ≤ MAX_PAGES) :
    (renderToImage env s freshId).2.pagePool.length ≤ MAX_PAGES ∧
    ((getPage s freshId).1 ∈ (renderToImage env s freshId).2.pagePool ∨
     (getPage s freshId).1 ∈ (renderToImage env s freshId).2.closed) ∧
    (renderToImage env s freshId).2 =
      releasePage (renderMidState env s freshId) (getPage s freshId).1 := by
  have hrel : (renderToImage env s freshId).2 =
      releasePage (renderMidState env s freshId) (getPage s freshId).1 := rfl
  have hmidlen : (renderMidState env s freshId).pagePool.length ≤ MAX_PAGES := by
    rw [renderMidState_pool]
    exact le_trans (getPage_pool_length s freshId) hb
  refine ⟨?_, ?_, hrel⟩
  · rw [hrel]
    exact releasePage_length _ _ hmidlen
  · rw [hrel]
    exact releasePage_mem _ _

/-- Witness for C5: a failing render (timeout message) on an empty pool still
leaves the session in the pool or torn down, within the bound. -/
theorem renderToImage_releases_session_witness :
    (renderToImage ⟨.error "page.setContent: timeout 30000ms exceeded", false⟩
        ⟨[], []⟩ 3).2.pagePool.length ≤ MAX_PAGES ∧
    ((getPage (⟨[], []⟩ : PoolState) 3).1 ∈
        (renderToImage ⟨.error "page.setContent: timeout 30000ms exceeded",
          false⟩ ⟨[], []⟩ 3).2.pagePool ∨
     (getPage (⟨[], []⟩ : PoolState) 3).1 ∈
        (renderToImage ⟨.error "page.setContent: timeout 30000ms exceeded",
          false⟩ ⟨[], []⟩ 3).2.closed) :=
  ⟨(renderToImage_releases_session _ _ _ (by decide)).1,
   (renderToImage_releases_session
      ⟨.error "page.setContent: timeout 30000ms exceeded", false⟩ ⟨[], []⟩ 3
      (by decide)).2.1⟩

/-! ## Claim C9 -/

theorem browserCallStep_launching {s : BrowserState} (h : s.launching = true) :
    browserCallStep s = (s, false) := by
  cases hc : s.connected with
  | none => simp [browserCallStep, hc, h]
  | some b => cases b <;> simp [browserCallStep, hc, h]

theorem runCalls_launching {s : BrowserState} (h : s.launching = true) :
    ∀ n, runCalls s n = (s, 0) := by
  intro n
  induction n with
  | zero => rfl
  | succ m ih =>
    show runCalls s (m + 1) = (s, 0)
    unfold runCalls
    rw [browserCallStep_launching h]
    dsimp only
    rw [ih]
    rfl

theorem browser_inv {s : BrowserState} (h : BrowserReach s) :
    s.builds = (if s.launching then 1 else 0) ∧
    (s.connected = some true → s.launching = false) := by
  induction h with
  | init => exact ⟨rfl, fun _ => rfl⟩
  | @call s1 hr ih =>
    obtain ⟨ih1, ih2⟩ := ih
    by_cases hl : s1.launching = true
    · rw [browserCallStep_launching hl]
      exact ⟨ih1, ih2⟩
    · cases hc : s1.connected with
      | none =>
        have hstep : browserCallStep s1 =
            ({ s1 with launching := true, builds := s1.builds + 1 }, true) := by
          simp [browserCallStep, hc, hl]
        rw [hstep]
        constructor
        · show s1.builds + 1 = 1
          rw [ih1]
          simp [hl]
        · intro hcon
          exact absurd (show s1.connected = some true from hcon) (by rw [hc]; simp)
      | some b =>
        cases b with
        | false =>
          have hstep : browserCallStep s1 =
              ({ s1 with launching := true, builds := s1.builds + 1 }, true) := by
            simp [browserCallStep, hc, hl]
          rw [hstep]
          constructor
          · show s1.builds + 1 = 1
            rw [ih1]
            simp [hl]
          · intro hcon
            exact absurd (show s1.connected = some true from hcon)
              (by rw [hc]; simp)
        | true =>
          have hstep : browserCallStep s1 = (s1, false) := by
            simp [browserCallStep, hc]
          rw [hstep]
          exact ⟨ih1, ih2⟩
  | @launchOk s1 hr hb ih =>
    obtain ⟨ih1, ih2⟩ := ih
    have h1 : s1.builds = 1 := by
      by_cases hl : s1.launching = true
      · rw [ih1, if_pos hl]
      · rw [ih1, if_neg hl] at hb
        omega
    exact ⟨by simp [h1], fun _ => rfl⟩
  | @launchFail s1 hr hb ih =>
    obtain ⟨ih1, ih2⟩ := ih
    have h1 : s1.builds = 1 := by
      by_cases hl : s1.launching = true
      · rw [ih1, if_pos hl]
      · rw [ih1, if_neg hl] at hb
        omega
    exact ⟨by simp [h1], fun _ => rfl⟩
  | @disconnect s1 hr hcon ih =>
    obtain ⟨ih1, ih2⟩ := ih
    have hl := ih2 hcon
    constructor
    · show s1.builds = (if false then 1 else 0)
      rw [ih1, hl]
    · intro h2
      exact absurd (show (none : Option Bool) = some true from h2) (by simp)

/-- C9: the browser-singleton guard of `getBrowser`.  First, `n` concurrent
first-time callers (each running its atomic synchronous prefix, in any
schedule, before any launch completes) start exactly one engine
construction, the rest awaiting the shared in-flight promise.  Second, in
every reachable module state at most one construction is in flight — two
engine constructions never proceed simultaneously. -/
theorem browser_single_construction :
    (∀ n, 1 ≤ n → (runCalls initialBrowserState n).2 = 1) ∧
    (∀ s, BrowserReach s → s.builds ≤ 1) := by
  constructor
  · intro n hn
    match n, hn with
    | m + 1, _ =>
      have h1 : browserCallStep initialBrowserState =
          (⟨none, true, 1⟩, true) := rfl
      have h2 := runCalls_launching
        (s := (⟨none, true, 1⟩ : BrowserState)) rfl m
      show (runCalls initialBrowserState (m + 1)).2 = 1
      unfold runCalls
      rw [h1]
      dsimp only
      rw [h2]
      rfl
  · intro s h
    have h1 := (browser_inv h).1
    by_cases hl : s.launching = true
    · rw [h1, if_pos hl]
    · rw [h1, if_neg hl]
      omega

/-- Witness for C9: three concurrent first-time calls start exactly one
construction, and the initial state has at most one in flight. -/
theorem browser_single_construction_witness :
    (runCalls initialBrowserState 3).2 = 1 ∧ initialBrowserState.builds ≤ 1 :=
  ⟨browser_single_construction.1 3 (by decide),
   browser_single_construction.2 initialBrowserState BrowserReach.init⟩

/-! ## Claim C7 -/

/-- C7: when the rating indicator's class suffix carries the raw integer `v`
(0 through 10), the extracted rating is `v / 2`: raw 7 gives 3.5, raw 10
gives 5.0, and raw 0 gives the rating 0.0 — a present value, not an absent
rating. -/
theorem rating_scaling (v : Nat) (hv : v ≤ 10) :
    extractRating 1 (some ("rating rated-" ++ toString v)) =
      some ((v : ℚ) / 2) := by
  have h : ratedScan (optGet (some ("rating rated-" ++ toString v))).toList =
      some v := by
    interval_cases v <;> decide
  unfold extractRating
  rw [if_pos (by decide : (0 : Nat) < 1), h]

/-- Witness for C7 at raw value 7 (the spec's own example: 7 ↦ 3.5). -/
theorem rating_scaling_witness :
    7 ≤ 10 ∧
    extractRating 1 (some ("rating rated-" ++ toString 7)) =
      some ((7 : ℚ) / 2) :=
  ⟨by decide, rating_scaling 7 (by decide)⟩

/-! ## Claim C3 -/

theorem quotedClose_ne_nil {acc l : List Char} {r : List Char}
    (h : quotedClose acc l = some r) : r ≠ [] := by
  induction l generalizing acc with
  | nil => exact absurd h (by simp [quotedClose])
  | cons c rest ih =>
    unfold quotedClose at h
    by_cases h1 : (decide (acc ≠ []) && isQuoteChar c) = true
    · rw [if_pos h1] at h
      have hacc : acc ≠ [] := by
        have h2 := h1
        simp only [Bool.and_eq_true, decide_eq_true_eq] at h2
        exact h2.1
      have h3 : r = acc.reverse := by
        have := h
        simp only [Option.some.injEq] at this
        exact this.symm
      rw [h3]
      simpa using hacc
    · rw [if_neg h1] at h
      by_cases h2 : isDotChar c = true
      · rw [if_pos h2] at h
        exact ih h
      · rw [if_neg h2] at h
        exact absurd h (by simp)

theorem quotedScan_ne_nil {l r : List Char} (h : quotedScan l = some r) :
    r ≠ [] := by
  induction l with
  | nil => exact absurd h (by simp [quotedScan])
  | cons c rest ih =>
    unfold quotedScan at h
    by_cases h1 : isQuoteChar c = true
    · rw [if_pos h1] at h
      cases h2 : quotedClose [] rest with
      | some content =>
        rw [h2] at h
        have h3 : r = content := by
          have := h
          simp only [Option.some.injEq] at this
          exact this.symm
        rw [h3]
        exact quotedClose_ne_nil h2
      | none =>
        rw [h2] at h
        exact ih h
    · rw [if_neg h1] at h
      exact ih h

theorem jsQuotedMatch_ne_empty {s q : String} (h : jsQuotedMatch s = some q) :
    q ≠ "" := by
  unfold jsQuotedMatch at h
  cases h2 : quotedScan s.toList with
  | none => rw [h2] at h; exact absurd h (by simp)
  | some content =>
    rw [h2] at h
    have h3 : String.mk content = q := by simpa using h
    have hc : content ≠ [] := quotedScan_ne_nil h2
    intro hq
    rw [← h3] at hq
    have h4 : (String.mk content).toList = ("" : String).toList := by rw [hq]
    exact hc h4

/-- C3, counterexample: markup whose `og:title` is present but matches
neither social-preview pattern while the page title carries a quoted film
name.  The spec cascade would take the page-title value; the code never
consults the page title when `og:title` is non-empty and falls back to the
slug-derived title instead. -/
theorem title_cascade_counterexample :
    extractTitle conflictDoc "some-film" = "Some Film" ∧
    specTitleCascade conflictDoc "some-film" = "Conflicting" ∧
    extractTitle conflictDoc "some-film" ≠
      specTitleCascade conflictDoc "some-film" := by
  refine ⟨by decide, by decide, by decide⟩

/-- C3, amended: the title cascade's order is poster attribute → heading →
og:title patterns → page-title pattern → slug, but the social-preview and
page-title strategies are gated on the *presence of their source text*, not
on earlier pattern failure: (a) a truthy poster attribute wins over
everything, including a conflicting page-title pattern; (b) whenever
`og:title` is non-empty the page title is never consulted (even if the
og patterns match nothing, where the slug-derived title is used); (c) the
page-title quoted pattern is used only when the poster attribute, heading
and `og:title` are all absent. -/
theorem title_cascade_gating :
    (∀ (doc : TitleSources) (slug : String),
        optTruthy doc.filmPosterTitle = true →
        extractTitle doc slug = optGet doc.filmPosterTitle) ∧
    (∀ (og : String) (posterT : Option String) (link pt1 pt2 slug : String),
        og ≠ "" →
        extractTitle ⟨og, posterT, link, pt1⟩ slug =
          extractTitle ⟨og, posterT, link, pt2⟩ slug) ∧
    (∀ (doc : TitleSources) (slug q : String),
        optTruthy doc.filmPosterTitle = false →
        doc.filmDetailLink = "" → doc.ogTitle = "" →
        jsQuotedMatch doc.pageTitle = some q →
        extractTitle doc slug = q) := by
  refine ⟨?_, ?_, ?_⟩
  · intro doc slug hP
    have hne : optGet doc.filmPosterTitle ≠ "" := by
      cases hA : doc.filmPosterTitle with
      | none => rw [hA] at hP; simp [optTruthy] at hP
      | some v =>
        rw [hA] at hP
        simp only [optTruthy, decide_eq_true_eq] at hP
        simpa [optGet] using hP
    simp only [extractTitle]
    rw [if_pos hP]
    rw [if_neg (by intro hand; exact hne hand.1)]
  · intro og posterT link pt1 pt2 slug hog
    simp only [extractTitle]
    by_cases hP : optTruthy posterT = true
    · simp [hP]
    · have hP2 : optTruthy posterT = false := by
        simpa using hP
      by_cases hL : link = ""
      · simp [hP2, hL, hog]
      · simp [hP2, hL]
  · intro doc slug q hP hL hog hQ
    have hne : doc.pageTitle ≠ "" := by
      intro hPT
      rw [hPT] at hQ
      rw [show jsQuotedMatch "" = none from rfl] at hQ
      exact absurd hQ (by simp)
    have hqne : q ≠ "" := jsQuotedMatch_ne_empty hQ
    simp [extractTitle, hP, hL, hog, hne, hQ, hqne]

/-- Witness for C3's amended theorem: the poster attribute wins against a
conflicting page-title pattern; the page title is ignored while og:title is
present; and the page-title pattern fires when og:title is absent. -/
theorem title_cascade_gating_witness :
    extractTitle ⟨"Untitled review", some "Poster Title", "",
        "A \"Conflicting\" review by bob"⟩ "some-film" = "Poster Title" ∧
    extractTitle ⟨"Untitled review", none, "", "A"⟩ "x" =
      extractTitle ⟨"Untitled review", none, "", "B"⟩ "x" ∧
    extractTitle ⟨"", none, "", "A \"Conflicting\" review"⟩ "slug" =
      "Conflicting" :=
  ⟨by
    have h := title_cascade_gating.1
      ⟨"Untitled review", some "Poster Title", "",
        "A \"Conflicting\" review by bob"⟩ "some-film" (by decide)
    simpa using h,
   title_cascade_gating.2.1 "Untitled review" none "" "A" "B" "x" (by decide),
   title_cascade_gating.2.2 ⟨"", none, "", "A \"Conflicting\" review"⟩ "slug"
     "Conflicting" (by decide) rfl rfl (by decide)⟩

/-! ## Claim C6 -/

theorem posterFallback_fields (env : ParseEnv) (m : ReviewMetadata) :
    (posterFallback env m).filmTitle = m.filmTitle ∧
    (posterFallback env m).filmYear = m.filmYear ∧
    (posterFallback env m).authorName = m.authorName ∧
    (posterFallback env m).authorUsername = m.authorUsername ∧
    (posterFallback env m).avatarUrl = m.avatarUrl ∧
    (posterFallback env m).rating = m.rating ∧
    (posterFallback env m).liked = m.liked ∧
    (posterFallback env m).watchedDate = m.watchedDate ∧
    (posterFallback env m).reviewText = m.reviewText ∧
    (posterFallback env m).spoiler = m.spoiler := by
  unfold posterFallback
  split_ifs <;> simp

theorem postPoster_fields (env : ParseEnv) (m : ReviewMetadata) :
    (postPoster env m).filmTitle = m.filmTitle ∧
    (postPoster env m).filmYear = m.filmYear ∧
    (postPoster env m).authorName = m.authorName ∧
    (postPoster env m).authorUsername = m.authorUsername ∧
    (postPoster env m).avatarUrl = m.avatarUrl ∧
    (postPoster env m).rating = m.rating ∧
    (postPoster env m).liked = m.liked ∧
    (postPoster env m).watchedDate = m.watchedDate ∧
    (postPoster env m).reviewText = m.reviewText ∧
    (postPoster env m).spoiler = m.spoiler := by
  unfold postPoster
  cases ht : env.tmdb with
  | ok t =>
    dsimp only
    by_cases hT : optTruthy t = true
    · rw [if_pos hT]; simp
    · rw [if_neg hT]; exact posterFallback_fields env m
  | error e => exact posterFallback_fields env m

theorem postAvatar_fields (env : ParseEnv) (m : ReviewMetadata) :
    (postAvatar env m).filmTitle = m.filmTitle ∧
    (postAvatar env m).filmYear = m.filmYear ∧
    (postAvatar env m).authorName = m.authorName ∧
    (postAvatar env m).authorUsername = m.authorUsername ∧
    (postAvatar env m).rating = m.rating ∧
    (postAvatar env m).liked = m.liked ∧
    (postAvatar env m).watchedDate = m.watchedDate ∧
    (postAvatar env m).reviewText = m.reviewText ∧
    (postAvatar env m).spoiler = m.spoiler ∧
    (postAvatar env m).posterUrl = m.posterUrl := by
  unfold postAvatar
  split_ifs <;> simp

theorem posterFallback_failed (env : ParseEnv) (m : ReviewMetadata)
    (hfail : ∀ u, m.posterUrl = some u → env.fetchImage u = none) :
    posterFallback env m = m := by
  unfold posterFallback
  by_cases hT : optTruthy m.posterUrl = true
  · rw [if_pos hT]
    cases hA : m.posterUrl with
    | none => rw [hA] at hT; simp [optTruthy] at hT
    | some u =>
      have hf := hfail u hA
      simp [optGet, hf, optTruthy]
  · rw [if_neg hT]

theorem postPoster_failed (env : ParseEnv) (m : ReviewMetadata)
    (ht : env.tmdb = .error () ∨ env.tmdb = .ok none ∨ env.tmdb = .ok (some ""))
    (hfail : ∀ u, m.posterUrl = some u → env.fetchImage u = none) :
    postPoster env m = m := by
  unfold postPoster
  rcases ht with h | h | h
  · rw [h]
    exact posterFallback_failed env m hfail
  · rw [h]
    show (if optTruthy none = true then _ else posterFallback env m) = m
    rw [if_neg (by simp [optTruthy])]
    exact posterFallback_failed env m hfail
  · rw [h]
    show (if optTruthy (some "") = true then _ else posterFallback env m) = m
    rw [if_neg (by simp [optTruthy])]
    exact posterFallback_failed env m hfail

theorem postAvatar_failed (env : ParseEnv) (m : ReviewMetadata)
    (hfail : ∀ u, m.avatarUrl = some u → env.fetchImage u = none) :
    postAvatar env m = m := by
  unfold postAvatar
  by_cases hT : optTruthy m.avatarUrl = true
  · rw [if_pos hT]
    cases hA : m.avatarUrl with
    | none => rw [hA] at hT; simp [optTruthy] at hT
    | some u =>
      have hf := hfail u hA
      simp [optGet, hf, optTruthy]
  · rw [if_neg hT]

/-- C6: when the primary fetch and parse succeed, `parseReview` returns
successfully whatever the supplementary image operations do; all fields
other than the two image fields are never touched; and when the external
poster lookup fails (thrown or empty) *and* the poster-byte embedding fails,
`posterUrl` keeps its extracted value — likewise `avatarUrl` when the avatar
embedding fails. -/
theorem parseReview_tolerates_image_failures (env : ParseEnv)
    (m : ReviewMetadata) (hpage : env.page = .ok m) :
    parseReview env = .ok (postAvatar env (postPoster env m)) ∧
    exceptIsOk (parseReview env) = true ∧
    (postAvatar env (postPoster env m)).filmTitle = m.filmTitle ∧
    (postAvatar env (postPoster env m)).filmYear = m.filmYear ∧
    (postAvatar env (postPoster env m)).authorName = m.authorName ∧
    (postAvatar env (postPoster env m)).authorUsername = m.authorUsername ∧
    (postAvatar env (postPoster env m)).rating = m.rating ∧
    (postAvatar env (postPoster env m)).liked = m.liked ∧
    (postAvatar env (postPoster env m)).watchedDate = m.watchedDate ∧
    (postAvatar env (postPoster env m)).reviewText = m.reviewText ∧
    (postAvatar env (postPoster env m)).spoiler = m.spoiler ∧
    ((env.tmdb = .error () ∨ env.tmdb = .ok none ∨ env.tmdb = .ok (some ""))
      → (∀ u, m.posterUrl = some u → env.fetchImage u = none) →
      (postAvatar env (postPoster env m)).posterUrl = m.posterUrl) ∧
    ((∀ u, m.avatarUrl = some u → env.fetchImage u = none) →
      (postAvatar env (postPoster env m)).avatarUrl = m.avatarUrl) := by
  have hok : parseReview env = .ok (postAvatar env (postPoster env m)) := by
    unfold parseReview
    rw [hpage]
  have hPP := postPoster_fields env m
  have hPA := postAvatar_fields env (postPoster env m)
  refine ⟨hok, by rw [hok]; rfl, ?_, ?_, ?_, ?_, ?_, ?_, ?_, ?_, ?_, ?_, ?_⟩
  · rw [hPA.1, hPP.1]
  · rw [hPA.2.1, hPP.2.1]
  · rw [hPA.2.2.1, hPP.2.2.1]
  · rw [hPA.2.2.2.1, hPP.2.2.2.1]
  · rw [hPA.2.2.2.2.1, hPP.2.2.2.2.2.1]
  · rw [hPA.2.2.2.2.2.1, hPP.2.2.2.2.2.2.1]
  · rw [hPA.2.2.2.2.2.2.1, hPP.2.2.2.2.2.2.2.1]
  · rw [hPA.2.2.2.2.2.2.2.1, hPP.2.2.2.2.2.2.2.2.1]
  · rw [hPA.2.2.2.2.2.2.2.2.1, hPP.2.2.2.2.2.2.2.2.2]
  · intro ht hfail
    rw [postPoster_failed env m ht hfail]
    exact (postAvatar_fields env m).2.2.2.2.2.2.2.2.2
  · intro hfail
    have hfail2 : ∀ u, (postPoster env m).avatarUrl = some u →
        env.fetchImage u = none := by
      intro u hu
      rw [hPP.2.2.2.2.1] at hu
      exact hfail u hu
    rw [postAvatar_failed env (postPoster env m) hfail2]
    exact hPP.2.2.2.2.1

/-- Witness for C6: a concrete page whose TMDB lookup returns nothing and
whose image embeds all fail still parses successfully with both image URLs
left at their extracted values. -/
theorem parseReview_tolerates_image_failures_witness :
    exceptIsOk (parseReview degradedEnv) = true ∧
    (postAvatar degradedEnv (postPoster degradedEnv sampleMetadata)).posterUrl
      = sampleMetadata.posterUrl ∧
    (postAvatar degradedEnv (postPoster degradedEnv sampleMetadata)).avatarUrl
      = sampleMetadata.avatarUrl ∧
    (postAvatar degradedEnv (postPoster degradedEnv sampleMetadata)).filmTitle
      = sampleMetadata.filmTitle :=
  ⟨(parseReview_tolerates_image_failures degradedEnv sampleMetadata rfl).2.1,
   (parseReview_tolerates_image_failures degradedEnv sampleMetadata
      rfl).2.2.2.2.2.2.2.2.2.2.2.1 (Or.inr (Or.inl rfl)) (fun _ _ => rfl),
   (parseReview_tolerates_image_failures degradedEnv sampleMetadata
      rfl).2.2.2.2.2.2.2.2.2.2.2.2 (fun _ _ => rfl),
   (parseReview_tolerates_image_failures degradedEnv sampleMetadata
      rfl).2.2.1⟩

/-! ## Claim C2 -/

/-- C2, counterexample: a short link whose redirect resolves to host
`letterboxd.com.evil.com` — outside the `letterboxd.com` domain, but
containing it as a substring — is *accepted* by `normalize` instead of
failing with `INVALID_REDIRECT`. -/
theorem redirect_substring_accepts_evil_host :
    normalizeUrl evilRedirectEnv "https://boxd.it/abc" =
      .ok "https://letterboxd.com.evil.com/path" ∧
    (parseURL "https://letterboxd.com.evil.com/path").map URLParts.hostname =
      some "letterboxd.com.evil.com" ∧
    hostBelongsToLetterboxd "letterboxd.com.evil.com" = false := by
  refine ⟨by decide, by decide, by decide⟩

/-- C2, amended: for a short-link input, `normalize` succeeds only when the
final redirected URL's host *contains the substring* `letterboxd.com` (the
code's `hostname.includes` test, weaker than membership in the source
domain); whenever the final host lacks that substring, `normalize` fails
with `INVALID_REDIRECT`. -/
theorem normalizeUrl_redirect_substring_gate (env : NormEnv) (u : String)
    (p : URLParts) (hp : parseURL (jsTrim u) = some p)
    (hproto : p.protocol = "http:" ∨ p.protocol = "https:")
    (hhost : strToLower p.hostname = "boxd.it") :
    (∀ w, normalizeUrl env u = .ok w →
        ∃ q, parseURL w = some q ∧
          strIncludes q.hostname "letterboxd.com" = true) ∧
    (∀ finalUrl q, env.redirect (jsTrim u) = .ok finalUrl →
        parseURL finalUrl = some q →
        strIncludes q.hostname "letterboxd.com" = false →
        normalizeUrl env u = .error NormCode.INVALID_REDIRECT) := by
  have hne : ¬ jsTrim u = "" := by
    intro h0
    rw [h0] at hp
    rw [show parseURL "" = none from rfl] at hp
    exact absurd hp (by simp)
  have hmem : strToLower p.hostname ∈ allowedDomains := by
    rw [hhost]
    decide
  have hnorm : normalizeUrl env u = followRedirect env (jsTrim u) := by
    unfold normalizeUrl
    rw [if_neg hne, hp]
    dsimp only
    rw [if_pos hproto, if_pos hmem, if_pos hhost]
  constructor
  · intro w hw
    rw [hnorm] at hw
    cases hr : env.redirect (jsTrim u) with
    | error e =>
      rw [show followRedirect env (jsTrim u) = .error .REDIRECT_FAILED by
        simp only [followRedirect, hr]] at hw
      exact absurd hw (by simp)
    | ok finalUrl =>
      cases hq : parseURL finalUrl with
      | none =>
        rw [show followRedirect env (jsTrim u) = .error .REDIRECT_FAILED by
          simp only [followRedirect, hr, hq]] at hw
        exact absurd hw (by simp)
      | some q =>
        by_cases hinc : strIncludes q.hostname "letterboxd.com" = true
        · rw [show followRedirect env (jsTrim u) = .ok finalUrl by
            simp only [followRedirect, hr, hq]
            rw [if_pos hinc]] at hw
          have hfw : finalUrl = w := by simpa using hw
          refine ⟨q, ?_, hinc⟩
          rw [← hfw]
          exact hq
        · rw [show followRedirect env (jsTrim u) = .error .INVALID_REDIRECT by
            simp only [followRedirect, hr, hq]
            rw [if_neg hinc]] at hw
          exact absurd hw (by simp)
  · intro finalUrl q hr hq hinc
    rw [hnorm]
    simp only [followRedirect, hr, hq]
    rw [if_neg (by rw [hinc]; simp)]

/-- Witness for C2's amended theorem: a redirect resolving to
`example.com` (no `letterboxd.com` substring) makes `normalize` fail with
`INVALID_REDIRECT`. -/
theorem normalizeUrl_redirect_substring_gate_witness :
    normalizeUrl ⟨fun _ => .ok "https://example.com/x"⟩ "https://boxd.it/abc" =
      .error NormCode.INVALID_REDIRECT :=
  (normalizeUrl_redirect_substring_gate ⟨fun _ => .ok "https://example.com/x"⟩
      "https://boxd.it/abc" ⟨"https:", "boxd.it", "/abc"⟩ (by decide)
      (Or.inr rfl) (by decide)).2 "https://example.com/x"
    ⟨"https:", "example.com", "/x"⟩ rfl (by decide) (by decide)

/-! ## Claim C8 -/

theorem dropWhile_self {α : Type} (q : α → Bool) (l : List α) :
    (l.dropWhile q).dropWhile q = l.dropWhile q := by
  induction l with
  | nil => rfl
  | cons a t ih =>
    by_cases h : q a = true
    · simp only [List.dropWhile, h]
      exact ih
    · simp only [List.dropWhile, h]

theorem dropWhile_length_le {α : Type} (q : α → Bool) (l : List α) :
    (l.dropWhile q).length ≤ l.length := by
  induction l with
  | nil => simp
  | cons a t ih =>
    by_cases h : q a = true
    · simp only [List.dropWhile, h]
      exact le_trans ih (by simp)
    · simp only [List.dropWhile, show (q a : Bool) = false by simpa using h]
      simp

theorem dropWhile_suffix_exists {α : Type} (q : α → Bool) (l : List α) :
    ∃ t, t ++ l.dropWhile q = l := by
  induction l with
  | nil => exact ⟨[], rfl⟩
  | cons a tl ih =>
    by_cases h : q a = true
    · obtain ⟨t, ht⟩ := ih
      refine ⟨a :: t, ?_⟩
      simp only [List.dropWhile, h]
      rw [List.cons_append, ht]
    · refine ⟨[], ?_⟩
      simp only [List.dropWhile, show (q a : Bool) = false by simpa using h]
      rfl

theorem dropWhile_eq_of_prefix {α : Type} {q : α → Bool} {a b : List α}
    (hpre : b <+: a) (ha : a.dropWhile q = a) : b.dropWhile q = b := by
  cases b with
  | nil => rfl
  | cons x t =>
    obtain ⟨r, hr⟩ := hpre
    have ha2 : a = x :: (t ++ r) := by rw [← hr]; rfl
    have hqx : q x = false := by
      by_cases hq : q x = true
      · exfalso
        rw [ha2] at ha
        rw [show List.dropWhile q (x :: (t ++ r)) = List.dropWhile q (t ++ r)
          by simp only [List.dropWhile, hq]] at ha
        have h1 := dropWhile_length_le q (t ++ r)
        rw [ha] at h1
        simp at h1
      · simpa using hq
    simp only [List.dropWhile, hqx]

theorem trimChars_idem (l : List Char) :
    trimChars (trimChars l) = trimChars l := by
  unfold trimChars
  set q := Char.isWhitespace with hq
  set a := l.dropWhile q with ha
  have hda : a.dropWhile q = a := by
    rw [ha]
    exact dropWhile_self q l
  have hpre : (a.reverse.dropWhile q).reverse <+: a := by
    obtain ⟨t, ht⟩ := dropWhile_suffix_exists q a.reverse
    refine ⟨t.reverse, ?_⟩
    have := congrArg List.reverse ht
    rw [List.reverse_append, List.reverse_reverse] at this
    exact this
  have hdb : ((a.reverse.dropWhile q).reverse).dropWhile q =
      (a.reverse.dropWhile q).reverse :=
    dropWhile_eq_of_prefix hpre hda
  rw [hdb, List.reverse_reverse]
  rw [dropWhile_self q a.reverse]

theorem jsTrim_idem (s : String) : jsTrim (jsTrim s) = jsTrim s := by
  show String.mk (trimChars (String.mk (trimChars s.toList)).toList) =
    String.mk (trimChars s.toList)
  rw [show (String.mk (trimChars s.toList)).toList = trimChars s.toList
    from rfl]
  exact congrArg String.mk (trimChars_idem s.toList)

/-- C8: `normalize` is idempotent on canonical-domain review URLs: whenever
the (trimmed) input parses with a host other than the short-link domain and
`normalize` succeeds with value `v`, running `normalize` on `v` succeeds and
returns `v` again. -/
theorem normalizeUrl_idempotent (env : NormEnv) (u v : String)
    (hcanon : (parseURL (jsTrim u)).all
        (fun p => decide (strToLower p.hostname ≠ "boxd.it")) = true)
    (hok : normalizeUrl env u = .ok v) :
    normalizeUrl env v = .ok v := by
  by_cases h0 : jsTrim u = ""
  · rw [show normalizeUrl env u = .error .EMPTY_URL by
      unfold normalizeUrl; rw [if_pos h0]] at hok
    exact absurd hok (by simp)
  · cases hp : parseURL (jsTrim u) with
    | none =>
      rw [show normalizeUrl env u = .error .INVALID_URL_FORMAT by
        unfold normalizeUrl; rw [if_neg h0, hp]] at hok
      exact absurd hok (by simp)
    | some p =>
      rw [hp] at hcanon
      have hbox : ¬ strToLower p.hostname = "boxd.it" := by
        simpa using hcanon
      have hflow : normalizeUrl env u =
          (if p.protocol = "http:" ∨ p.protocol = "https:" then
            if strToLower p.hostname ∈ allowedDomains then
              if strToLower p.hostname = "boxd.it" then
                followRedirect env (jsTrim u)
              else if (pathSegs p.pathname).length < 3 ∨
                  (pathSegs p.pathname).get? 1 ≠ some "film" then
                Except.error NormCode.NOT_REVIEW_URL
              else Except.ok (jsTrim u)
            else Except.error NormCode.INVALID_DOMAIN
          else Except.error NormCode.INVALID_PROTOCOL) := by
        unfold normalizeUrl
        rw [if_neg h0, hp]
      rw [hflow] at hok
      by_cases hproto : p.protocol = "http:" ∨ p.protocol = "https:"
      · rw [if_pos hproto] at hok
        by_cases hdom : strToLower p.hostname ∈ allowedDomains
        · rw [if_pos hdom, if_neg hbox] at hok
          by_cases hpath : (pathSegs p.pathname).length < 3 ∨
              (pathSegs p.pathname).get? 1 ≠ some "film"
          · rw [if_pos hpath] at hok
            exact absurd hok (by simp)
          · rw [if_neg hpath] at hok
            have hv : v = jsTrim u := by
              have := hok
              simp only [Except.ok.injEq] at this
              exact this.symm
            subst hv
            unfold normalizeUrl
            rw [jsTrim_idem]
            rw [if_neg h0, hp]
            dsimp only
            rw [if_pos hproto, if_pos hdom, if_neg hbox, if_neg hpath]
        · rw [if_neg hdom] at hok
          exact absurd hok (by simp)
      · rw [if_neg hproto] at hok
        exact absurd hok (by simp)

/-- Witness for C8 at a concrete canonical review URL: `normalize` maps it
to itself, so a second application returns the same value. -/
theorem normalizeUrl_idempotent_witness :
    normalizeUrl offlineEnv "https://letterboxd.com/alice/film/dune-part-two/"
      = .ok "https://letterboxd.com/alice/film/dune-part-two/" :=
  normalizeUrl_idempotent offlineEnv
    "https://letterboxd.com/alice/film/dune-part-two/"
    "https://letterboxd.com/alice/film/dune-part-two/" (by decide) (by decide)

end LB
